import Mathlib

/-!
Verification of the geometric feature-extraction core of the
bacterial-exclusion-prediction tool (Rust sources under `src/`).

The Rust code is shallowly embedded:

* `u8` pixel intensities and `usize`/`u32` quantities become `ℕ`;
  `u32` arithmetic that can wrap (release-mode semantics) is modelled
  explicitly with `% 2^32`;
* `f32`/`f64` arithmetic on values that are exactly representable
  (small integers, halves, quarters, eighths) is modelled with `ℚ`
  where the algorithm is closed under exact rational arithmetic, and
  with `ℝ` where square roots and arctangents appear; the IEEE-754
  behaviour of division by zero (signed infinities, NaN) is modelled
  by an explicit extended-value type where the code relies on it;
* external collaborators from the `image`/`imageproc` crates
  (contour tracer, polygon rasterizer, convex hull) are parameters of
  the embedded pipeline; the squared Euclidean distance transform is
  modelled from its documented semantics (spec section 3, "Distance
  Field": value at a pixel = squared distance to the nearest on
  pixel);
* Rust panics (`unwrap` on an empty vector) are modelled by `Option`,
  `none` being a panic.
-/

/-- A single-channel image: width, height and a pixel lookup
(row-major `u8` grid in the source; values are naturals, 0–255 for
genuine images). -/
structure Img where
  w : ℕ
  h : ℕ
  pxl : ℕ → ℕ → ℕ

/-- The pixel coordinates of an image in the order `enumerate_pixels`
visits them (x varies fastest). -/
def Img.coords (img : Img) : List (ℕ × ℕ) :=
  (List.range img.h).flatMap (fun y => (List.range img.w).map (fun x => (x, y)))

/-- Rust `i32::clamp` (`v.clamp(lo, hi)`), as used for border
handling in `absolute_contrast_threshold`. -/
def clampZ (v lo hi : ℤ) : ℤ := max lo (min v hi)

/-- `image.get_pixel` at coordinates clamped to the image border, as in
`helpers.rs` lines 67–83 (`(x as i32 + vx).clamp(0, width - 1)`).
For `w = 0` or `h = 0` the Rust `clamp` would panic, but no pixel is
ever enumerated then, so the junk value is unreachable. -/
def getClamped (img : Img) (x y : ℤ) : ℕ :=
  img.pxl (clampZ x 0 ((img.w : ℤ) - 1)).toNat (clampZ y 0 ((img.h : ℤ) - 1)).toNat

/-- The eight neighbour offsets `(vx, vy)` in the order the nested
loops of `absolute_contrast_threshold` produce them (`vx in -1..2`,
`vy in -1..2`, skipping `(0,0)`). -/
def contrastOffsets : List (ℤ × ℤ) :=
  [(-1,-1), (-1,0), (-1,1), (0,-1), (0,1), (1,-1), (1,0), (1,1)]

/-- The first four offsets: one representative per opposing neighbour
pair (the other four are their negations). -/
def pairOffsets : List (ℤ × ℤ) := [(-1,-1), (-1,0), (-1,1), (0,-1)]

/-- `helpers.rs` lines 67–86: the absolute intensity difference
between the neighbour at `(x - vx, y - vy)` (`opposite`) and the
neighbour at `(x + vx, y + vy)` (`pixel`), with clamped coordinates. -/
def oppositeDiff (img : Img) (x y : ℕ) (v : ℤ × ℤ) : ℚ :=
  |((getClamped img ((x : ℤ) - v.1) ((y : ℤ) - v.2) : ℕ) : ℚ)
    - ((getClamped img ((x : ℤ) + v.1) ((y : ℤ) + v.2) : ℕ) : ℚ)|

/-- `helpers.rs` line 94: the summed absolute differences over the 8
offsets, divided by the loop count (8).  All quantities are sums of
integers below 2^11 divided by a power of two, hence exact in `f32`;
the embedding uses `ℚ`. -/
def contrastMagnitude (img : Img) (x y : ℕ) : ℚ :=
  ((contrastOffsets.map (oppositeDiff img x y)).sum) / 8

/-- Rust `f32::round` (half away from zero) followed by a cast to an
unsigned integer, for a nonnegative argument: `⌊q + 1/2⌋`. -/
def roundNN (q : ℚ) : ℕ := (q + 1/2).floor.toNat

/-- `helpers.rs` lines 52–108, `absolute_contrast_threshold`: returns
the thresholded binary mask and the rounded contrast magnitude image
(in the source the pair `(thresholded_contrast, contrast)`). -/
def absolute_contrast_threshold (img : Img) (threshold : ℚ) : Img × Img :=
  (⟨img.w, img.h, fun x y => if threshold < contrastMagnitude img x y then 255 else 0⟩,
   ⟨img.w, img.h, fun x y => roundNN (contrastMagnitude img x y)⟩)

/-- Whether a traced boundary is an outer border or an interior hole
(`imageproc::contours::BorderType`). -/
inductive BorderKind where
  | Outer : BorderKind
  | Hole : BorderKind
deriving DecidableEq

/-- A traced contour: border kind and its (nonempty, closed) point
sequence.  The external tracer guarantees at least one point per
contour (spec section 3 invariant). -/
structure Contour where
  border_type : BorderKind
  points : List (ℕ × ℕ)

/-- One shoelace summand, `helpers.rs` lines 17–18:
`(prev.x + p.x) as f32 * (prev.y as f32 - p.y as f32)`.  The `u32`
addition `prev.x + p.x` does not wrap for image coordinates. -/
def shoelaceStep (prev p : ℕ × ℕ) : ℚ :=
  ((prev.1 + p.1 : ℕ) : ℚ) * ((prev.2 : ℚ) - (p.2 : ℚ))

/-- The shoelace accumulation loop of `helpers.rs` lines 15–21,
starting from a given previous point. -/
def shoelaceSum : (ℕ × ℕ) → List (ℕ × ℕ) → ℚ
  | _, [] => 0
  | prev, p :: rest => shoelaceStep prev p + shoelaceSum p rest

/-- `helpers.rs` lines 14–23: signed shoelace area over the closed
point sequence (previous point starts at the last point, so the
polygon wraps from last back to first), halved and taken absolutely.
The source unwraps `points.last()`; contours are nonempty, so the
default for `[]` is unreachable. -/
def contourArea (pts : List (ℕ × ℕ)) : ℚ :=
  |shoelaceSum (pts.getLastD (0, 0)) pts / 2|

/-- `helpers.rs` line 26: a contour is retained when
`minimum_area < area.round() as usize`. -/
def keepContour (minimum_area : ℕ) (pts : List (ℕ × ℕ)) : Bool :=
  decide (minimum_area < roundNN (contourArea pts))

/-- The `retain` step of `filter_by_minimum_area`
(`helpers.rs` lines 12–27). -/
def retainByMinimumArea (minimum_area : ℕ) (cs : List Contour) : List Contour :=
  cs.filter (fun c => keepContour minimum_area c.points)

/-- `helpers.rs` lines 6–44, `filter_by_minimum_area`.  The contour
tracer (`find_contours`, threshold 0) and the filled-polygon
rasterizer (`draw_polygon_mut` loop, lines 30–41) are external
`imageproc` collaborators, taken as parameters. -/
def filter_by_minimum_area
    (tracer : Img → ℕ → List Contour)
    (rasterize : ℕ → ℕ → List Contour → Img)
    (mask : Img) (minimum_area : ℕ) : Img :=
  rasterize mask.w mask.h (retainByMinimumArea minimum_area (tracer mask 0))

/-- The error type of `src/algorithms/mod.rs` lines 15–21. -/
inductive Error where
  | FailedToDetectText : String → Error
  | ToSmallExclusionDiameter : Error
  | ExtremeLineIsNonHorizontal : Error
  | LessThenTwoApplicableLinesFound : Error
deriving DecidableEq

/-- The `BacteriaExclusion` configuration record
(`configuration.rs` lines 17–24). -/
structure BacteriaExclusion where
  enabled : Bool
  contrast_threshold : ℚ
  minimum_edge_area : ℕ
  exclusion_radius : ℚ
  radius_adjusted : Bool

/-- Modelled from the spec (section 3, "Distance Field", and the
documented semantics of the external
`imageproc::distance_transform::euclidean_squared_distance_transform`):
the value at a pixel is the squared Euclidean distance to the nearest
"on" (non-zero) pixel of the mask; `none` models the `f64` infinity
produced when the mask has no on pixel. -/
def sqDistTransform (m : Img) (x y : ℕ) : Option ℕ :=
  ((m.coords.filter (fun p => decide (0 < m.pxl p.1 p.2))).map
    (fun p => ((x : ℤ) - p.1).natAbs ^ 2 + ((y : ℤ) - p.2).natAbs ^ 2)).min?

/-- The per-pixel exclusion test of `bacteria_exclusion.rs` line 63:
the (squared) distance-field value is compared against the pixel
radius `exclusion_radius / scale` itself.  An infinite distance
(`none`, empty mask) compares false. -/
def exclusionTest (d : Option ℕ) (radius : ℚ) : Bool :=
  match d with
  | none => false
  | some v => decide ((v : ℚ) < radius)

/-- The exclusion test as the spec words it (spec section 4.3:
"pixel is on iff its distance-field value is less than the squared
pixel radius") — the refinement reference the source is compared
against for claim C1. -/
def exclusionTestSpec (d : Option ℕ) (radius : ℚ) : Bool :=
  match d with
  | none => false
  | some v => decide ((v : ℚ) < radius ^ 2)

/-- `bacteria_exclusion.rs` lines 56–67: the binary exclusion-zone
mask (dimensions of the input image, distance transform of the
filtered edge mask). -/
def exclusionZone (input_image filtered : Img) (radius : ℚ) : Img :=
  ⟨input_image.w, input_image.h,
    fun x y => if exclusionTest (sqDistTransform filtered x y) radius then 255 else 0⟩

/-- `bacteria_exclusion.rs` lines 61–71: the count of on pixels of the
exclusion zone divided by the total pixel count. -/
def exclusionRatio (input_image filtered : Img) (radius : ℚ) : ℚ :=
  ((input_image.coords.filter
      (fun p => exclusionTest (sqDistTransform filtered p.1 p.2) radius)).length : ℚ)
    / ((input_image.w * input_image.h : ℕ) : ℚ)

/-- `u32` wrapping subtraction (release-mode `a - b`); operands are
`u32` values, i.e. below `2^32`. -/
def wsub32 (a b : ℕ) : ℕ := (2 ^ 32 + a - b) % 2 ^ 32

/-- `u32` wrapping multiplication (release-mode overflow). -/
def wmul32 (a b : ℕ) : ℕ := a * b % 2 ^ 32

/-- `u32` wrapping addition (release-mode overflow). -/
def wadd32 (a b : ℕ) : ℕ := (a + b) % 2 ^ 32

/-- `⌊√n + 1/2⌋` on naturals: the exact-arithmetic value of the
source's `(n as f32).sqrt().round() as usize` (`f32::round` rounds
half away from zero; the argument is nonnegative). -/
def rsqrtRound (n : ℕ) : ℕ := (Nat.sqrt (4 * n) + 1) / 2

/-- `bacteria_exclusion.rs` lines 132–136: the rounded distance from
pixel `(x, y)` to the assumed optical center
`(width, height / 2)`.  Both inner subtractions are `u32` and wrap
(`y - height / 2` underflows for the upper half of the image); the
two squares and their sum are `u32` as well. -/
def radialIndex (w h x y : ℕ) : ℕ :=
  rsqrtRound (wadd32 (wmul32 (wsub32 w x) (wsub32 w x))
                     (wmul32 (wsub32 y (h / 2)) (wsub32 y (h / 2))))

/-- `bacteria_exclusion.rs` lines 119–121: the side of pixel
`(x, y)` relative to the directed hull edge `prev → p`
(`f32` products of small integer casts are exact; modelled in `ℤ`). -/
def hullCross (prev p : ℕ × ℕ) (x y : ℕ) : ℤ :=
  ((prev.1 : ℤ) - p.1) * ((y : ℤ) - p.2) - ((x : ℤ) - p.1) * ((prev.2 : ℤ) - p.2)

/-- The inner edge loop of `bacteria_exclusion.rs` lines 117–130:
walks the hull edges from the given previous point; the pixel
survives (`true`) only when every edge has a strictly negative cross
product (`0.0 <= line_distance` jumps to the next pixel). -/
def insideHullAux (x y : ℕ) : (ℕ × ℕ) → List (ℕ × ℕ) → Bool
  | _, [] => true
  | prev, p :: rest =>
      if 0 ≤ hullCross prev p x y then false else insideHullAux x y p rest

/-- `bacteria_exclusion.rs` lines 139–148: drop the pixel when the
index is out of range, otherwise add the white indicator to the
bucket's running sum and bump its sample count. -/
def bucketUpdate (buckets : List (ℚ × ℕ)) (d : ℕ) (pxlv : ℕ) : List (ℚ × ℕ) :=
  if buckets.length ≤ d then buckets
  else
    let b := buckets.getD d (0, 0)
    buckets.set d ((if pxlv = 255 then b.1 + 1 else b.1), b.2 + 1)

/-- The body of the per-pixel loop of `bacteria_exclusion.rs`
lines 114–148.  `hull.last().unwrap()` panics (`none`) on an empty
hull; otherwise the pixel contributes only when it passes the
inside-hull test. -/
def processPixel (hull : List (ℕ × ℕ)) (w h : ℕ) (buckets : List (ℚ × ℕ))
    (x y pxlv : ℕ) : Option (List (ℚ × ℕ)) :=
  match hull.getLast? with
  | none => none
  | some lastPt =>
      if insideHullAux x y lastPt hull then
        some (bucketUpdate buckets (radialIndex w h x y) pxlv)
      else some buckets

/-- `bacteria_exclusion.rs` lines 113–149: the radial accumulation
over every pixel of the exclusion zone, starting from
`vec![(0.0, 0); width]`. -/
def radialLoop (hull : List (ℕ × ℕ)) (zone : Img) : Option (List (ℚ × ℕ)) :=
  zone.coords.foldlM
    (fun buckets p => processPixel hull zone.w zone.h buckets p.1 p.2 (zone.pxl p.1 p.2))
    (List.replicate zone.w ((0 : ℚ), (0 : ℕ)))

/-- `bacteria_exclusion.rs` lines 152–156: divide each bucket's sum by
its sample count when the count is positive. -/
def averageBuckets (buckets : List (ℚ × ℕ)) : List (ℚ × ℕ) :=
  buckets.map (fun b => if 0 < b.2 then (b.1 / (b.2 : ℚ), b.2) else b)

/-- `bacteria_exclusion.rs` lines 160–168: sum the bucket means
weighted by the annulus areas `π·d² − π·(d−1)²` and normalize by
`π·(width − 1)²`. -/
noncomputable def adjustedRatio (buckets : List (ℚ × ℕ)) (w : ℕ) : ℝ :=
  ((buckets.enum.map (fun db =>
      (((db.1 : ℝ) ^ 2 * Real.pi - ((db.1 : ℝ) - 1) ^ 2 * Real.pi) * (db.2.1 : ℝ)))).sum)
    / (((w : ℝ) - 1) ^ 2 * Real.pi)

/-- `bacteria_exclusion.rs` lines 16–189, `bacteria_exclusion`, with
`debug = false` (all debug branches are dead) and the CSV export (pure
I/O) omitted.  The contour tracer, the polygon rasterizer and the
convex hull are external `imageproc` collaborators, taken as
parameters; `none` models a panic. -/
noncomputable def bacteria_exclusion
    (tracer : Img → ℕ → List Contour)
    (rasterize : ℕ → ℕ → List Contour → Img)
    (hullFn : List (ℕ × ℕ) → List (ℕ × ℕ))
    (input_image : Img) (config : BacteriaExclusion) (scale : ℚ) :
    Option (Except Error ℝ) :=
  let edges := (absolute_contrast_threshold input_image config.contrast_threshold).1
  let filtered_edges := filter_by_minimum_area tracer rasterize edges config.minimum_edge_area
  let bacteria_exclusion_radius := config.exclusion_radius / scale
  if bacteria_exclusion_radius < 1 then some (.error .ToSmallExclusionDiameter)
  else
    let zone := exclusionZone input_image filtered_edges bacteria_exclusion_radius
    let ratio := exclusionRatio input_image filtered_edges bacteria_exclusion_radius
    if config.radius_adjusted then
      let hull := hullFn ((tracer input_image 1).flatMap Contour.points)
      match radialLoop hull zone with
      | none => none
      | some buckets =>
          some (.ok (adjustedRatio (averageBuckets buckets) input_image.w))
    else some (.ok (ratio : ℝ))

/-- The `GrapheneAngles` configuration record
(`configuration.rs` lines 26–33). -/
structure GrapheneAngles where
  enabled : Bool
  blur : ℚ
  threshold : ℕ
  min_graphene_size : ℝ
  min_graphene_ratio : ℝ

/-- `contour.points.iter().step_by(5)` of `graphene_angles.rs`
line 41: every fifth point, starting at index 0. -/
def sampleEvery5 (pts : List (ℕ × ℕ)) : List (ℕ × ℕ) :=
  (pts.enum.filter (fun ia => ia.1 % 5 == 0)).map Prod.snd

/-- `graphene_angles.rs` lines 49–51: the Euclidean distance between
two sample points.  The coordinate subtractions are `u32` and wrap in
release mode; each wrapped difference is squared with `u32` wrapping
multiplication, cast to `f32` and the two casts are added and
square-rooted in `f32` (modelled exactly in `ℝ`). -/
noncomputable def pairDistance (p q : ℕ × ℕ) : ℝ :=
  Real.sqrt ((wmul32 (wsub32 p.1 q.1) (wsub32 p.1 q.1) : ℝ)
    + (wmul32 (wsub32 p.2 q.2) (wsub32 p.2 q.2) : ℝ))

/-- The double loop of `graphene_angles.rs` lines 44–60: the pair of
sample points at maximal distance, with that distance, visited in
source order with strict improvement.  `sample_points[0]` is the
start value (contours are nonempty, so the default is unreachable). -/
noncomputable def farthestPair (s : List (ℕ × ℕ)) : (ℕ × ℕ) × (ℕ × ℕ) × ℝ :=
  (s.flatMap (fun a => s.map (fun b => (a, b)))).foldl
    (fun acc pq =>
      if acc.2.2 < pairDistance pq.1 pq.2 then (pq.1, pq.2, pairDistance pq.1 pq.2) else acc)
    (s.headD (0, 0), s.headD (0, 0), 0)

/-- `graphene_angles.rs` lines 71–75: the perpendicular distance of a
sample point to the line through `point_1` and `point_2`, via the
cross-product-over-length formula (`f32` arithmetic on small integer
casts, modelled exactly in `ℝ`). -/
noncomputable def lineDistance (p1 p2 p : ℕ × ℕ) (maxd : ℝ) : ℝ :=
  |((p2.2 : ℝ) - (p1.2 : ℝ)) * ((p1.1 : ℝ) - (p.1 : ℝ))
    - ((p1.2 : ℝ) - (p.2 : ℝ)) * ((p2.1 : ℝ) - (p1.1 : ℝ))| / maxd

/-- The loop of `graphene_angles.rs` lines 68–81: the maximum
perpendicular distance of a sample point to the long-axis line. -/
noncomputable def maxDistToLine (s : List (ℕ × ℕ)) (p1 p2 : ℕ × ℕ) (maxd : ℝ) : ℝ :=
  s.foldl
    (fun acc p => if acc < lineDistance p1 p2 p maxd then lineDistance p1 p2 p maxd else acc)
    0

/-- An IEEE-754 value as produced by the `f32` division at
`graphene_angles.rs` line 84: finite, a signed infinity, or NaN. -/
inductive F32Val where
  | fin : ℝ → F32Val
  | posInf : F32Val
  | negInf : F32Val
  | nan : F32Val

/-- IEEE-754 `f32` division for finite operands: a positive value
divided by zero is `+∞`, a negative one `-∞`, and `0.0 / 0.0` is NaN;
otherwise the exact quotient (rounding is immaterial to the claims). -/
noncomputable def f32div (a b : ℝ) : F32Val :=
  if b = 0 then (if 0 < a then .posInf else if a < 0 then .negInf else .nan) else .fin (a / b)

/-- IEEE-754 `<` against a finite bound: `+∞ < c` and `NaN < c` are
false, `-∞ < c` is true. -/
def f32vLt (v : F32Val) (c : ℝ) : Prop :=
  match v with
  | .fin x => x < c
  | .posInf => False
  | .negInf => True
  | .nan => False

noncomputable instance (v : F32Val) (c : ℝ) : Decidable (f32vLt v c) := by
  unfold f32vLt
  cases v <;> infer_instance

/-- Rust `f32::atan2` (`self = y`, `other = x`) for finite arguments,
in exact real arithmetic: the angle of the vector `(x, y)` in
`(-π, π]`, with `atan2 0 0 = 0`. -/
noncomputable def atan2 (y x : ℝ) : ℝ :=
  if 0 < x then Real.arctan (y / x)
  else if x < 0 then
    (if 0 ≤ y then Real.arctan (y / x) + Real.pi else Real.arctan (y / x) - Real.pi)
  else if 0 < y then Real.pi / 2
  else if y < 0 then -(Real.pi / 2)
  else 0

/-- Rust `f32::rem_euclid` for a positive modulus, in exact real
arithmetic: `a - b * ⌊a / b⌋ ∈ [0, b)`. -/
noncomputable def fremEuclid (a b : ℝ) : ℝ := a - b * ⌊a / b⌋

/-- `graphene_angles.rs` lines 96–99: the flake orientation angle
`π/2 - atan2(p2.y - p1.y, p2.x - p1.x).rem_euclid(π)` (the coordinate
differences are taken after the `f32` casts, so they do not wrap). -/
noncomputable def flakeAngle (p1 p2 : ℕ × ℕ) : ℝ :=
  Real.pi / 2
    - fremEuclid (atan2 ((p2.2 : ℝ) - (p1.2 : ℝ)) ((p2.1 : ℝ) - (p1.1 : ℝ))) Real.pi

/-- The per-contour body of `graphene_angles.rs` lines 41–102 (with
`debug = false`), applied to the sampled points: long-axis search,
minimum-size filter, elongation filter, then the emitted Flake Record
(center, orientation angle, physical length). -/
noncomputable def processContour (samples : List (ℕ × ℕ))
    (scale min_graphene_size min_graphene_ratio : ℝ) :
    Option ((ℝ × ℝ) × ℝ × ℝ) :=
  let fp := farthestPair samples
  let point_1 := fp.1
  let point_2 := fp.2.1
  let current_maximum_distance := fp.2.2
  if current_maximum_distance * scale < min_graphene_size then none
  else
    let maximum_distance_to_line := maxDistToLine samples point_1 point_2 current_maximum_distance
    if f32vLt (f32div current_maximum_distance maximum_distance_to_line) min_graphene_ratio then
      none
    else
      let center_x := ((max point_1.1 point_2.1 - min point_1.1 point_2.1 : ℕ) : ℝ) / 2
        + ((min point_1.1 point_2.1 : ℕ) : ℝ)
      let center_y := ((max point_1.2 point_2.2 - min point_1.2 point_2.2 : ℕ) : ℝ) / 2
        + ((min point_1.2 point_2.2 : ℕ) : ℝ)
      some ((center_x, center_y), flakeAngle point_1 point_2, current_maximum_distance * scale)

/-- `graphene_angles.rs` lines 31–157: hole contours are skipped, the
others are sampled and processed; one Flake Record per accepted
contour.  The Gaussian blur, the threshold and the contour tracer that
produce the contour list are external collaborators, so the embedded
function starts from the traced contours. -/
noncomputable def graphene_angles (contours : List Contour)
    (scale min_graphene_size min_graphene_ratio : ℝ) :
    List ((ℝ × ℝ) × ℝ × ℝ) :=
  contours.filterMap (fun c =>
    if c.border_type = BorderKind.Hole then none
    else processContour (sampleEvery5 c.points) scale min_graphene_size min_graphene_ratio)

/-- A concrete 11-point contour whose every-5th samples are the
collinear points `(0,0), (3,4), (6,8)` (indices 0, 5 and 10). -/
def collinearContour : Contour :=
  ⟨BorderKind.Outer,
   [(0,0), (1,1), (1,2), (2,2), (2,3), (3,4), (4,5), (4,6), (5,6), (5,7), (6,8)]⟩

/-- The sampled points of `collinearContour`: three collinear points
on the line of direction `(3,4)`. -/
def collinearSamples : List (ℕ × ℕ) := [(0,0), (3,4), (6,8)]

lemma oppositeDiff_neg (img : Img) (x y : ℕ) (v : ℤ × ℤ) :
    oppositeDiff img x y (-v.1, -v.2) = oppositeDiff img x y v := by
  unfold oppositeDiff
  simp only [sub_neg_eq_add, ← sub_eq_add_neg]
  exact abs_sub_comm _ _

lemma oppositeDiff_nonneg (img : Img) (x y : ℕ) (v : ℤ × ℤ) :
    0 ≤ oppositeDiff img x y v := abs_nonneg _

lemma getClamped_le_255 (img : Img) (hpx : ∀ i j, img.pxl i j ≤ 255) (x y : ℤ) :
    ((getClamped img x y : ℕ) : ℚ) ≤ 255 := by
  have := hpx (clampZ x 0 ((img.w : ℤ) - 1)).toNat (clampZ y 0 ((img.h : ℤ) - 1)).toNat
  unfold getClamped
  exact_mod_cast this

lemma oppositeDiff_le_255 (img : Img) (x y : ℕ) (v : ℤ × ℤ)
    (hpx : ∀ i j, img.pxl i j ≤ 255) : oppositeDiff img x y v ≤ 255 := by
  unfold oppositeDiff
  rw [abs_sub_le_iff]
  constructor
  · have h1 := getClamped_le_255 img hpx ((x : ℤ) - v.1) ((y : ℤ) - v.2)
    have h2 : (0 : ℚ) ≤ ((getClamped img ((x : ℤ) + v.1) ((y : ℤ) + v.2) : ℕ) : ℚ) :=
      Nat.cast_nonneg _
    linarith
  · have h1 := getClamped_le_255 img hpx ((x : ℤ) + v.1) ((y : ℤ) + v.2)
    have h2 : (0 : ℚ) ≤ ((getClamped img ((x : ℤ) - v.1) ((y : ℤ) - v.2) : ℕ) : ℚ) :=
      Nat.cast_nonneg _
    linarith

/-- C6: the Directional Contrast Detector's magnitude at a pixel is
the average of the 8 absolute differences of opposing 3×3 neighbours
(the 4 opposing pairs each counted from both sides, with out-of-bound
coordinates clamped to the nearest edge inside `getClamped`), it lies
in `[0, 255]` whenever the image is 8-bit, and the binary mask is 255
exactly when the magnitude strictly exceeds the threshold and 0
otherwise. -/
theorem contrast_detector_magnitude_and_mask (img : Img) (t : ℚ) (x y : ℕ)
    (hpx : ∀ i j, img.pxl i j ≤ 255) (ht : 0 ≤ t) :
    contrastMagnitude img x y
        = (pairOffsets.map (fun v => 2 * oppositeDiff img x y v)).sum / 8
      ∧ 0 ≤ contrastMagnitude img x y
      ∧ contrastMagnitude img x y ≤ 255
      ∧ ((absolute_contrast_threshold img t).1.pxl x y = 255
          ↔ t < contrastMagnitude img x y)
      ∧ ((absolute_contrast_threshold img t).1.pxl x y = 0
          ↔ ¬ t < contrastMagnitude img x y) := by
  have e1 : oppositeDiff img x y (1, 1) = oppositeDiff img x y (-1, -1) := by
    simpa using oppositeDiff_neg img x y (-1, -1)
  have e2 : oppositeDiff img x y (1, 0) = oppositeDiff img x y (-1, 0) := by
    simpa using oppositeDiff_neg img x y (-1, 0)
  have e3 : oppositeDiff img x y (1, -1) = oppositeDiff img x y (-1, 1) := by
    simpa using oppositeDiff_neg img x y (-1, 1)
  have e4 : oppositeDiff img x y (0, 1) = oppositeDiff img x y (0, -1) := by
    simpa using oppositeDiff_neg img x y (0, -1)
  have hsum : contrastMagnitude img x y
      = (pairOffsets.map (fun v => 2 * oppositeDiff img x y v)).sum / 8 := by
    simp only [contrastMagnitude, contrastOffsets, pairOffsets, List.map_cons, List.map_nil,
      List.sum_cons, List.sum_nil]
    rw [e1, e2, e3, e4]
    ring
  have hnn : 0 ≤ contrastMagnitude img x y := by
    unfold contrastMagnitude
    apply div_nonneg _ (by norm_num)
    apply List.sum_nonneg
    intro q hq
    simp only [List.mem_map] at hq
    obtain ⟨v, _, rfl⟩ := hq
    exact oppositeDiff_nonneg img x y v
  have hub : contrastMagnitude img x y ≤ 255 := by
    have hlen : (contrastOffsets.map (oppositeDiff img x y)).length = 8 := by
      simp [contrastOffsets]
    have hb := List.sum_le_card_nsmul (contrastOffsets.map (oppositeDiff img x y)) 255 ?_
    · rw [hlen] at hb
      unfold contrastMagnitude
      rw [div_le_iff₀ (by norm_num : (0 : ℚ) < 8)]
      rw [nsmul_eq_mul] at hb
      push_cast at hb
      linarith
    · intro q hq
      simp only [List.mem_map] at hq
      obtain ⟨v, _, rfl⟩ := hq
      exact oppositeDiff_le_255 img x y v hpx
  refine ⟨hsum, hnn, hub, ?_, ?_⟩ <;>
    · simp only [absolute_contrast_threshold]
      by_cases hc : t < contrastMagnitude img x y <;> simp [hc]

/-- Witness for C6 at a concrete 2×1 image and threshold 0. -/
theorem contrast_detector_magnitude_and_mask_witness :
    (∀ i j, (Img.mk 2 1 (fun x _ => if x = 0 then 0 else 8)).pxl i j ≤ 255)
      ∧ (0 : ℚ) ≤ 0
      ∧ (0 ≤ contrastMagnitude (Img.mk 2 1 (fun x _ => if x = 0 then 0 else 8)) 0 0
          ∧ contrastMagnitude (Img.mk 2 1 (fun x _ => if x = 0 then 0 else 8)) 0 0 ≤ 255) := by
  have hpx : ∀ i j, (Img.mk 2 1 (fun x _ => if x = 0 then 0 else 8)).pxl i j ≤ 255 := by
    intro i j
    dsimp only
    split <;> norm_num
  have h := contrast_detector_magnitude_and_mask
    (Img.mk 2 1 (fun x _ => if x = 0 then 0 else 8)) 0 0 0 hpx le_rfl
  exact ⟨hpx, le_rfl, h.2.1, h.2.2.1⟩

/-- C7: the Contour Area Filter keeps a traced contour iff the
absolute value of its signed shoelace area over the closed point
sequence (wrapping from the last point back to the first), rounded to
the nearest integer, strictly exceeds the minimum-area threshold;
contours with rounded area at most the threshold are discarded. -/
theorem area_filter_keeps_iff_rounded_area_gt (minimum_area : ℕ) (cs : List Contour)
    (c : Contour) :
    c ∈ retainByMinimumArea minimum_area cs
      ↔ c ∈ cs ∧ minimum_area < roundNN (contourArea c.points) := by
  simp [retainByMinimumArea, List.mem_filter, keepContour]

/-- C8: raising the minimum-area threshold never increases the number
of contours surviving the Contour Area Filter. -/
theorem area_filter_count_antitone (t1 t2 : ℕ) (cs : List Contour) (h : t1 ≤ t2) :
    (retainByMinimumArea t2 cs).length ≤ (retainByMinimumArea t1 cs).length := by
  apply List.Sublist.length_le
  apply List.monotone_filter_right
  intro c hc
  simp only [keepContour, decide_eq_true_eq] at hc ⊢
  omega

/-- Witness for C8 at a concrete contour list and thresholds 2 ≤ 10. -/
theorem area_filter_count_antitone_witness :
    (2 : ℕ) ≤ 10
      ∧ (retainByMinimumArea 10 [Contour.mk BorderKind.Outer [(0,0),(4,0),(4,4),(0,4)]]).length
          ≤ (retainByMinimumArea 2 [Contour.mk BorderKind.Outer [(0,0),(4,0),(4,4),(0,4)]]).length :=
  ⟨by decide,
   area_filter_count_antitone 2 10 [Contour.mk BorderKind.Outer [(0,0),(4,0),(4,4),(0,4)]]
     (by decide)⟩

/-- C1: evaluation of the exclusion-mask construction at a failing
input.  For the 5×1 filtered edge mask with a single on pixel at
`(0,0)` and pixel radius 4 (e.g. `exclusion_radius = 4`, `scale = 1`,
which passes the `< 1.0` check), the pixel `(2,0)` has distance-field
value 4; the code (line 63, squared distance compared against the
UN-squared radius) leaves it off, while the spec's test (squared
distance against the squared radius, `4 < 16`) turns it on.  The
resulting ratios also differ: the code yields 2/5, the spec's
thresholding yields 4/5. -/
theorem exclusion_threshold_compares_unsquared_radius :
    sqDistTransform (Img.mk 5 1 (fun x y => if x = 0 ∧ y = 0 then 255 else 0)) 2 0 = some 4
    ∧ exclusionTest
        (sqDistTransform (Img.mk 5 1 (fun x y => if x = 0 ∧ y = 0 then 255 else 0)) 2 0) 4
        = false
    ∧ exclusionTestSpec
        (sqDistTransform (Img.mk 5 1 (fun x y => if x = 0 ∧ y = 0 then 255 else 0)) 2 0) 4
        = true
    ∧ (exclusionZone (Img.mk 5 1 (fun x y => if x = 0 ∧ y = 0 then 255 else 0))
        (Img.mk 5 1 (fun x y => if x = 0 ∧ y = 0 then 255 else 0)) 4).pxl 2 0 = 0
    ∧ exclusionRatio (Img.mk 5 1 (fun x y => if x = 0 ∧ y = 0 then 255 else 0))
        (Img.mk 5 1 (fun x y => if x = 0 ∧ y = 0 then 255 else 0)) 4 = 2 / 5
    ∧ ((List.range 5).filter (fun x =>
        exclusionTestSpec
          (sqDistTransform (Img.mk 5 1 (fun x y => if x = 0 ∧ y = 0 then 255 else 0)) x 0)
          4)).length = 4 := by
  refine ⟨by decide, by decide, by decide, by decide, ?_, by decide⟩
  have h2 : ((Img.mk 5 1 (fun x y => if x = 0 ∧ y = 0 then 255 else 0)).coords.filter
      (fun p => exclusionTest
        (sqDistTransform (Img.mk 5 1 (fun x y => if x = 0 ∧ y = 0 then 255 else 0)) p.1 p.2)
        4)).length = 2 := by decide
  unfold exclusionRatio
  rw [h2]
  norm_num

lemma insideHullAux_eq_true_iff (x y : ℕ) (l : List (ℕ × ℕ)) :
    ∀ prev : ℕ × ℕ,
      insideHullAux x y prev l = true
        ↔ ∀ pq ∈ List.zip (prev :: l) l, hullCross pq.1 pq.2 x y < 0 := by
  induction l with
  | nil => intro prev; simp [insideHullAux]
  | cons p rest ih =>
      intro prev
      by_cases hc : 0 ≤ hullCross prev p x y
      · simp [insideHullAux, hc, not_lt.mpr hc]
      · simp only [insideHullAux, if_neg hc, List.zip_cons_cons, List.mem_cons]
        rw [ih p]
        constructor
        · rintro hall pq (rfl | hpq)
          · exact not_le.mp hc
          · exact hall pq hpq
        · intro hall pq hpq
          exact hall pq (Or.inr hpq)

/-- C5: a pixel contributes to the radial buckets only when it lies
strictly inside the convex hull: the per-pixel loop survives the edge
walk iff every hull edge's cross product is strictly negative, and as
soon as some edge yields a zero cross product (pixel exactly on the
edge) or a nonnegative one (outer side), the pixel is excluded — the
buckets are returned unchanged. -/
theorem hull_test_strictly_inside (hull : List (ℕ × ℕ)) (lastPt : ℕ × ℕ)
    (w h x y pxlv : ℕ) (buckets : List (ℚ × ℕ))
    (hl : hull.getLast? = some lastPt) :
    (insideHullAux x y lastPt hull = true
        ↔ ∀ pq ∈ List.zip (lastPt :: hull) hull, hullCross pq.1 pq.2 x y < 0)
      ∧ ((∃ pq ∈ List.zip (lastPt :: hull) hull, 0 ≤ hullCross pq.1 pq.2 x y) →
          processPixel hull w h buckets x y pxlv = some buckets) := by
  refine ⟨insideHullAux_eq_true_iff x y hull lastPt, ?_⟩
  rintro ⟨pq, hpq, hge⟩
  have hfalse : insideHullAux x y lastPt hull = false := by
    rw [Bool.eq_false_iff]
    intro htrue
    exact absurd ((insideHullAux_eq_true_iff x y hull lastPt).mp htrue pq hpq) (not_lt.mpr hge)
  simp [processPixel, hl, hfalse]

/-- Witness for C5: the triangle hull `[(0,0),(4,0),(0,4)]` and the
pixel `(0,0)`, which lies exactly on a hull edge (zero cross product)
and is therefore excluded. -/
theorem hull_test_strictly_inside_witness :
    ([(0,0),(4,0),(0,4)] : List (ℕ × ℕ)).getLast? = some (0,4)
      ∧ ((∃ pq ∈ List.zip ((0,4) :: [(0,0),(4,0),(0,4)]) [(0,0),(4,0),(0,4)],
            0 ≤ hullCross pq.1 pq.2 0 0) →
          processPixel [(0,0),(4,0),(0,4)] 8 8 (List.replicate 8 ((0:ℚ),(0:ℕ))) 0 0 0
            = some (List.replicate 8 ((0:ℚ),(0:ℕ)))) :=
  ⟨by decide,
   (hull_test_strictly_inside [(0,0),(4,0),(0,4)] (0,4) 8 8 0 0 0
      (List.replicate 8 ((0:ℚ),(0:ℕ))) (by decide)).2⟩

lemma wsub_wmul_sq (a b : ℕ) (ha : a ≤ 2 ^ 15) (hb : b ≤ 2 ^ 15) :
    wmul32 (wsub32 a b) (wsub32 a b) = ((a : ℤ) - b).natAbs ^ 2 := by
  unfold wsub32 wmul32
  rcases le_or_lt b a with hba | hab
  · have h1 : (2 ^ 32 + a - b) % 2 ^ 32 = a - b := by omega
    rw [h1]
    have hm := Nat.mul_le_mul (show a - b ≤ 2 ^ 15 by omega) (show a - b ≤ 2 ^ 15 by omega)
    have h2 : (a - b) * (a - b) < 2 ^ 32 := by omega
    rw [Nat.mod_eq_of_lt h2]
    have h3 : ((a : ℤ) - b).natAbs = a - b := by omega
    rw [h3, sq]
  · have h1 : (2 ^ 32 + a - b) % 2 ^ 32 = 2 ^ 32 - (b - a) := by omega
    rw [h1]
    have key : (2 ^ 32 - (b - a)) * (2 ^ 32 - (b - a))
        = (b - a) * (b - a) + (2 ^ 32 - 2 * (b - a)) * 2 ^ 32 := by
      zify [show b - a ≤ 2 ^ 32 by omega, show 2 * (b - a) ≤ 2 ^ 32 by omega]
      ring
    rw [key, Nat.add_mul_mod_self_right]
    have hm := Nat.mul_le_mul (show b - a ≤ 2 ^ 15 by omega) (show b - a ≤ 2 ^ 15 by omega)
    have h2 : (b - a) * (b - a) < 2 ^ 32 := by omega
    rw [Nat.mod_eq_of_lt h2]
    have h3 : ((a : ℤ) - b).natAbs = b - a := by omega
    rw [h3, sq]

lemma rsqrtRound_eq_floor (n : ℕ) :
    ((rsqrtRound n : ℕ) : ℤ) = ⌊Real.sqrt (n : ℝ) + 1 / 2⌋ := by
  set m := Nat.sqrt (4 * n) with hm
  have hms : (m : ℝ) * m ≤ 4 * n := by exact_mod_cast Nat.sqrt_le (4 * n)
  have hlt : (4 : ℝ) * n < ((m : ℝ) + 1) * ((m : ℝ) + 1) := by exact_mod_cast Nat.lt_succ_sqrt (4 * n)
  have h4n : Real.sqrt ((4 : ℝ) * n) = 2 * Real.sqrt n := by
    rw [show (4 : ℝ) * n = 2 ^ 2 * n by ring, Real.sqrt_mul (by positivity),
      Real.sqrt_sq (by norm_num)]
  have hle : (m : ℝ) ≤ 2 * Real.sqrt n := by
    rw [← h4n]
    refine (Real.le_sqrt (by positivity) (by positivity)).mpr ?_
    nlinarith
  have hgt : 2 * Real.sqrt n < (m : ℝ) + 1 := by
    rw [← h4n]
    refine (Real.sqrt_lt' (by positivity)).mpr ?_
    nlinarith
  have hsq := Real.sqrt_nonneg (n : ℝ)
  rcases Nat.even_or_odd m with ⟨k, hk⟩ | ⟨k, hk⟩
  · have hr : rsqrtRound n = k := by unfold rsqrtRound; omega
    rw [hr]
    symm
    rw [Int.floor_eq_iff]
    have hkr : (m : ℝ) = (k : ℝ) + (k : ℝ) := by exact_mod_cast congrArg (Nat.cast (R := ℝ)) hk
    constructor
    · push_cast
      linarith
    · push_cast
      linarith
  · have hr : rsqrtRound n = k + 1 := by unfold rsqrtRound; omega
    rw [hr]
    symm
    rw [Int.floor_eq_iff]
    have hkr : (m : ℝ) = 2 * (k : ℝ) + 1 := by exact_mod_cast congrArg (Nat.cast (R := ℝ)) hk
    constructor
    · push_cast
      linarith
    · push_cast
      linarith

lemma radialIndex_eq (w h x y : ℕ) (hx : x < w) (hy : y < h)
    (hw : w ≤ 2 ^ 15) (hh : h ≤ 2 ^ 15) :
    ((radialIndex w h x y : ℕ) : ℤ)
      = ⌊Real.sqrt (((w : ℝ) - x) ^ 2 + ((y : ℝ) - ((h / 2 : ℕ) : ℝ)) ^ 2) + 1 / 2⌋ := by
  unfold radialIndex
  set q : ℕ := h / 2 with hq
  rw [wsub_wmul_sq w x hw (by omega), wsub_wmul_sq y q (by omega) (by omega)]
  have b1 := Nat.mul_le_mul (show ((w : ℤ) - x).natAbs ≤ 2 ^ 15 by omega)
    (show ((w : ℤ) - x).natAbs ≤ 2 ^ 15 by omega)
  have b2 := Nat.mul_le_mul (show ((y : ℤ) - (q : ℕ)).natAbs ≤ 2 ^ 15 by omega)
    (show ((y : ℤ) - (q : ℕ)).natAbs ≤ 2 ^ 15 by omega)
  have hsum : ((w : ℤ) - x).natAbs ^ 2 + ((y : ℤ) - (q : ℕ)).natAbs ^ 2 < 2 ^ 32 := by
    rw [sq, sq]
    omega
  unfold wadd32
  rw [Nat.mod_eq_of_lt hsum, rsqrtRound_eq_floor]
  congr 2
  push_cast [Int.cast_natAbs]
  rw [sq_abs, sq_abs]

/-- C4: for a pixel that passes the hull test, the radial bucket index
is the rounded Euclidean distance from the optical center at
`(width, height / 2)`, i.e. `⌊√((w-x)² + (y-h/2)²) + 1/2⌋`; a pixel
whose index reaches the table length is dropped entirely (the buckets
are returned unchanged, never clamped to the last bucket); an in-range
pixel updates exactly the bucket at its index, every other bucket
staying unchanged.  The size bounds keep the `u32` squares and their
sum below `2^32`, which is amply satisfied by real micrographs. -/
theorem radial_bucket_index_rounded_distance
    (hull : List (ℕ × ℕ)) (lastPt : ℕ × ℕ) (w h x y pxlv : ℕ) (buckets : List (ℚ × ℕ))
    (hl : hull.getLast? = some lastPt)
    (hin : insideHullAux x y lastPt hull = true)
    (hx : x < w) (hy : y < h) (hw : w ≤ 2 ^ 15) (hh : h ≤ 2 ^ 15) :
    ((radialIndex w h x y : ℕ) : ℤ)
        = ⌊Real.sqrt (((w : ℝ) - x) ^ 2 + ((y : ℝ) - ((h / 2 : ℕ) : ℝ)) ^ 2) + 1 / 2⌋
      ∧ (buckets.length ≤ radialIndex w h x y →
          processPixel hull w h buckets x y pxlv = some buckets)
      ∧ (radialIndex w h x y < buckets.length →
          processPixel hull w h buckets x y pxlv
            = some (buckets.set (radialIndex w h x y)
                ((if pxlv = 255 then (buckets.getD (radialIndex w h x y) (0, 0)).1 + 1
                  else (buckets.getD (radialIndex w h x y) (0, 0)).1),
                 (buckets.getD (radialIndex w h x y) (0, 0)).2 + 1)))
      ∧ (∀ j, j ≠ radialIndex w h x y →
          (bucketUpdate buckets (radialIndex w h x y) pxlv)[j]? = buckets[j]?) := by
  refine ⟨radialIndex_eq w h x y hx hy hw hh, ?_, ?_, ?_⟩
  · intro hge
    simp [processPixel, hl, hin, bucketUpdate, hge]
  · intro hlt
    have hnle : ¬ buckets.length ≤ radialIndex w h x y := not_le.mpr hlt
    simp [processPixel, hl, hin, bucketUpdate, hnle]
  · intro j hj
    unfold bucketUpdate
    by_cases hge : buckets.length ≤ radialIndex w h x y
    · rw [if_pos hge]
    · rw [if_neg hge]
      exact List.getElem?_set_ne (Ne.symm hj)

/-- Witness for C4: triangle hull `[(0,0),(4,0),(0,4)]`, pixel
`(1,1)` (strictly inside), an 8×8 image and a 9-bucket table; the
index is `⌊√58 + 1/2⌋ = 8 < 9`, so bucket 8 is updated. -/
theorem radial_bucket_index_rounded_distance_witness :
    ([(0,0),(4,0),(0,4)] : List (ℕ × ℕ)).getLast? = some (0,4)
      ∧ insideHullAux 1 1 (0,4) [(0,0),(4,0),(0,4)] = true
      ∧ (1 : ℕ) < 8 ∧ (8 : ℕ) ≤ 2 ^ 15
      ∧ processPixel [(0,0),(4,0),(0,4)] 8 8 (List.replicate 9 ((0:ℚ),(0:ℕ))) 1 1 255
          = some ((List.replicate 9 ((0:ℚ),(0:ℕ))).set (radialIndex 8 8 1 1)
              (((List.replicate 9 ((0:ℚ),(0:ℕ))).getD (radialIndex 8 8 1 1) (0,0)).1 + 1,
               ((List.replicate 9 ((0:ℚ),(0:ℕ))).getD (radialIndex 8 8 1 1) (0,0)).2 + 1)) := by
  have h := radial_bucket_index_rounded_distance [(0,0),(4,0),(0,4)] (0,4) 8 8 1 1 255
    (List.replicate 9 ((0:ℚ),(0:ℕ))) (by decide) (by decide) (by decide) (by decide)
    (by decide) (by decide)
  refine ⟨by decide, by decide, by decide, by decide, ?_⟩
  have hs : Nat.sqrt 232 = 15 := by
    have h1 : 15 ≤ Nat.sqrt 232 := Nat.le_sqrt.mpr (by norm_num)
    have h2 : Nat.sqrt 232 < 16 := Nat.sqrt_lt.mpr (by norm_num)
    omega
  have hval : radialIndex 8 8 1 1 = 8 := by
    have h58 : wadd32 (wmul32 (wsub32 8 1) (wsub32 8 1))
        (wmul32 (wsub32 1 (8 / 2)) (wsub32 1 (8 / 2))) = 58 := by decide
    unfold radialIndex
    rw [h58]
    unfold rsqrtRound
    rw [show 4 * 58 = 232 by norm_num, hs]
  have hidx : radialIndex 8 8 1 1 < (List.replicate 9 ((0:ℚ),(0:ℕ))).length := by
    rw [hval]
    decide
  simpa using h.2.2.1 hidx

/-- C2: for any image, any externals and a positive scale, the
pipeline returns the `ToSmallExclusionDiameter` error (the spec's
`ExclusionRadiusTooSmall`) exactly when the converted pixel radius
`exclusion_radius / scale` is strictly below 1 (so a radius converting
to exactly 1.0 is accepted, one converting to 0.999 is rejected), and
when the radius passes the check no error value is ever produced —
the result is `Ok` or, in the degenerate adjusted case, a panic. -/
theorem exclusion_radius_error_iff
    (tracer : Img → ℕ → List Contour)
    (rasterize : ℕ → ℕ → List Contour → Img)
    (hullFn : List (ℕ × ℕ) → List (ℕ × ℕ))
    (input_image : Img) (config : BacteriaExclusion) (scale : ℚ) (hs : 0 < scale) :
    (bacteria_exclusion tracer rasterize hullFn input_image config scale
        = some (Except.error Error.ToSmallExclusionDiameter)
      ↔ config.exclusion_radius / scale < 1)
    ∧ (¬ config.exclusion_radius / scale < 1 →
        bacteria_exclusion tracer rasterize hullFn input_image config scale = none
        ∨ ∃ r, bacteria_exclusion tracer rasterize hullFn input_image config scale
            = some (Except.ok r)) := by
  by_cases hr : config.exclusion_radius / scale < 1
  · constructor
    · rw [bacteria_exclusion, if_pos hr]
      simp [hr]
    · intro hc
      exact absurd hr hc
  · rw [bacteria_exclusion, if_neg hr]
    rcases hadj : config.radius_adjusted with _ | _
    · simp only [hadj, Bool.false_eq_true, if_false]
      refine ⟨by simp [hr], fun _ => Or.inr ⟨_, rfl⟩⟩
    · simp only [hadj, if_true]
      rcases hloop : radialLoop (hullFn ((tracer input_image 1).flatMap Contour.points))
          (exclusionZone input_image
            (filter_by_minimum_area tracer rasterize
              ((absolute_contrast_threshold input_image config.contrast_threshold).1)
              config.minimum_edge_area)
            (config.exclusion_radius / scale)) with _ | buckets
      · exact ⟨by simp [hr], fun _ => Or.inl rfl⟩
      · exact ⟨by simp [hr], fun _ => Or.inr ⟨_, rfl⟩⟩

/-- Witness for C2: a 1×1 black image, trivial externals, radius
0.999 and scale 1 — the converted radius is below one pixel and the
error is returned. -/
theorem exclusion_radius_error_iff_witness :
    (0 : ℚ) < 1
      ∧ (bacteria_exclusion (fun _ _ => []) (fun w h _ => Img.mk w h (fun _ _ => 0))
            (fun _ => []) (Img.mk 1 1 (fun _ _ => 0))
            (BacteriaExclusion.mk true 45 5 (999/1000) false) 1
          = some (Except.error Error.ToSmallExclusionDiameter)
        ↔ (BacteriaExclusion.mk true 45 5 (999/1000) false).exclusion_radius / 1 < 1) :=
  ⟨by norm_num,
   (exclusion_radius_error_iff (fun _ _ => []) (fun w h _ => Img.mk w h (fun _ _ => 0))
      (fun _ => []) (Img.mk 1 1 (fun _ _ => 0))
      (BacteriaExclusion.mk true 45 5 (999/1000) false) 1 (by norm_num)).1⟩

lemma radialLoop_empty_hull (zone : Img) (hw : 0 < zone.w) (hh : 0 < zone.h) :
    radialLoop [] zone = none := by
  have hmem : ((0, 0) : ℕ × ℕ) ∈ zone.coords := by
    simp only [Img.coords, List.mem_flatMap, List.mem_map, List.mem_range]
    exact ⟨0, hh, 0, hw, rfl⟩
  obtain ⟨p, rest, hco⟩ := List.exists_cons_of_ne_nil (List.ne_nil_of_mem hmem)
  unfold radialLoop
  rw [hco, List.foldlM_cons]
  simp [processPixel]

/-- C10: with radius adjustment enabled, a radius passing the `< 1`
check and an input whose traced outer contours produce an empty point
set (e.g. an all-black image, for which the external tracer finds no
contours and the hull of no points is empty), the pipeline panics on
the first pixel (`unwrap` of the last point of the empty hull) instead
of returning an `Ok` ratio or an `Err` value. -/
theorem empty_hull_first_pixel_panic
    (tracer : Img → ℕ → List Contour)
    (rasterize : ℕ → ℕ → List Contour → Img)
    (hullFn : List (ℕ × ℕ) → List (ℕ × ℕ))
    (input_image : Img) (config : BacteriaExclusion) (scale : ℚ)
    (hadj : config.radius_adjusted = true)
    (hhull : hullFn ((tracer input_image 1).flatMap Contour.points) = [])
    (hr : ¬ config.exclusion_radius / scale < 1)
    (hw : 0 < input_image.w) (hh : 0 < input_image.h) :
    bacteria_exclusion tracer rasterize hullFn input_image config scale = none := by
  rw [bacteria_exclusion, if_neg hr]
  simp only [hadj, if_true, hhull]
  rw [radialLoop_empty_hull (exclusionZone input_image
    (filter_by_minimum_area tracer rasterize
      ((absolute_contrast_threshold input_image config.contrast_threshold).1)
      config.minimum_edge_area)
    (config.exclusion_radius / scale)) hw hh]

/-- Witness for C10: an all-black 1×1 image with a tracer returning no
contours, hull of nothing empty, radius 1 and scale 1. -/
theorem empty_hull_first_pixel_panic_witness :
    (BacteriaExclusion.mk true 45 5 1 true).radius_adjusted = true
      ∧ ((fun (_ : List (ℕ × ℕ)) => ([] : List (ℕ × ℕ)))
          (((fun (_ : Img) (_ : ℕ) => ([] : List Contour)) (Img.mk 1 1 (fun _ _ => 0)) 1).flatMap
            Contour.points) = [])
      ∧ ¬ (BacteriaExclusion.mk true 45 5 1 true).exclusion_radius / 1 < 1
      ∧ bacteria_exclusion (fun _ _ => []) (fun w h _ => Img.mk w h (fun _ _ => 0))
          (fun _ => []) (Img.mk 1 1 (fun _ _ => 0))
          (BacteriaExclusion.mk true 45 5 1 true) 1 = none := by
  refine ⟨rfl, rfl, by norm_num, ?_⟩
  exact empty_hull_first_pixel_panic (fun _ _ => []) (fun w h _ => Img.mk w h (fun _ _ => 0))
    (fun _ => []) (Img.mk 1 1 (fun _ _ => 0)) (BacteriaExclusion.mk true 45 5 1 true) 1
    rfl rfl (by norm_num) (by norm_num) (by norm_num)

lemma fremEuclid_add_int_mul (a : ℝ) (k : ℤ) (b : ℝ) (hb : b ≠ 0) :
    fremEuclid (a + k * b) b = fremEuclid a b := by
  unfold fremEuclid
  have hd : (a + k * b) / b = a / b + k := by
    field_simp
  rw [hd, Int.floor_add_int]
  push_cast
  ring

lemma atan2_neg_neg (y x : ℝ) :
    ∃ k : ℤ, atan2 (-y) (-x) = atan2 y x + k * Real.pi := by
  rcases lt_trichotomy x 0 with hx | hx | hx
  · have h1 : (0 : ℝ) < -x := by linarith
    have h2 : ¬ (0 : ℝ) < x := by linarith
    simp only [atan2, if_pos h1, if_neg h2, if_pos hx, neg_div_neg_eq]
    by_cases hy : 0 ≤ y
    · exact ⟨-1, by rw [if_pos hy]; push_cast; ring⟩
    · exact ⟨1, by rw [if_neg hy]; push_cast; ring⟩
  · subst hx
    simp only [atan2, neg_zero, lt_self_iff_false, if_false]
    rcases lt_trichotomy y 0 with hy | hy | hy
    · have h1 : (0 : ℝ) < -y := by linarith
      have h2 : ¬ (0 : ℝ) < y := by linarith
      exact ⟨1, by rw [if_pos h1, if_neg h2, if_pos hy]; push_cast; ring⟩
    · subst hy
      exact ⟨0, by rw [neg_zero]; push_cast; ring⟩
    · have h1 : ¬ (0 : ℝ) < -y := by linarith
      have h2 : -y < 0 := by linarith
      exact ⟨-1, by rw [if_neg h1, if_pos h2, if_pos hy]; push_cast; ring⟩
  · have h1 : ¬ (0 : ℝ) < -x := by linarith
    have h2 : -x < 0 := by linarith
    have h3 : ¬ x < 0 := by linarith
    simp only [atan2, if_pos hx, if_neg h1, if_pos h2, neg_div_neg_eq]
    by_cases hy : 0 ≤ -y
    · exact ⟨1, by rw [if_pos hy]; push_cast; ring⟩
    · exact ⟨-1, by rw [if_neg hy]; push_cast; ring⟩

/-- C9: swapping the roles of the two extreme points — which is what
sampling the flake's long axis in the opposite direction does —
leaves the orientation angle of `graphene_angles` exactly unchanged:
`atan2` of the negated vector differs by `±π` and `rem_euclid π`
cancels that difference, so the two angles differ by 0 (in
particular they are identical modulo π, as the spec's angle
equivalence property states). -/
theorem flake_angle_reversal_invariant (p1 p2 : ℕ × ℕ) :
    flakeAngle p1 p2 = flakeAngle p2 p1 := by
  unfold flakeAngle
  have hy : ((p1.2 : ℝ) - (p2.2 : ℝ)) = -((p2.2 : ℝ) - (p1.2 : ℝ)) := by ring
  have hx : ((p1.1 : ℝ) - (p2.1 : ℝ)) = -((p2.1 : ℝ) - (p1.1 : ℝ)) := by ring
  rw [hy, hx]
  obtain ⟨k, hk⟩ := atan2_neg_neg ((p2.2 : ℝ) - (p1.2 : ℝ)) ((p2.1 : ℝ) - (p1.1 : ℝ))
  rw [hk, fremEuclid_add_int_mul _ _ _ Real.pi_ne_zero]

lemma pairDistance_eq_of (p q : ℕ × ℕ) (n : ℕ) (r : ℝ)
    (hn : wmul32 (wsub32 p.1 q.1) (wsub32 p.1 q.1)
        + wmul32 (wsub32 p.2 q.2) (wsub32 p.2 q.2) = n)
    (hr : 0 ≤ r) (hrn : r ^ 2 = (n : ℝ)) : pairDistance p q = r := by
  unfold pairDistance
  have hcast : ((wmul32 (wsub32 p.1 q.1) (wsub32 p.1 q.1) : ℕ) : ℝ)
      + ((wmul32 (wsub32 p.2 q.2) (wsub32 p.2 q.2) : ℕ) : ℝ) = (n : ℝ) := by
    rw [← hn]
    push_cast
    ring
  rw [hcast, ← hrn, Real.sqrt_sq hr]

lemma farthestPair_collinear : farthestPair collinearSamples = ((0, 0), (6, 8), 10) := by
  have d00 : pairDistance (0,0) (0,0) = 0 :=
    pairDistance_eq_of _ _ 0 0 (by norm_num [wsub32, wmul32]) le_rfl (by norm_num)
  have d01 : pairDistance (0,0) (3,4) = 5 :=
    pairDistance_eq_of _ _ 25 5 (by norm_num [wsub32, wmul32]) (by norm_num) (by norm_num)
  have d02 : pairDistance (0,0) (6,8) = 10 :=
    pairDistance_eq_of _ _ 100 10 (by norm_num [wsub32, wmul32]) (by norm_num) (by norm_num)
  have d10 : pairDistance (3,4) (0,0) = 5 :=
    pairDistance_eq_of _ _ 25 5 (by norm_num [wsub32, wmul32]) (by norm_num) (by norm_num)
  have d11 : pairDistance (3,4) (3,4) = 0 :=
    pairDistance_eq_of _ _ 0 0 (by norm_num [wsub32, wmul32]) le_rfl (by norm_num)
  have d12 : pairDistance (3,4) (6,8) = 5 :=
    pairDistance_eq_of _ _ 25 5 (by norm_num [wsub32, wmul32]) (by norm_num) (by norm_num)
  have d20 : pairDistance (6,8) (0,0) = 10 :=
    pairDistance_eq_of _ _ 100 10 (by norm_num [wsub32, wmul32]) (by norm_num) (by norm_num)
  have d21 : pairDistance (6,8) (3,4) = 5 :=
    pairDistance_eq_of _ _ 25 5 (by norm_num [wsub32, wmul32]) (by norm_num) (by norm_num)
  have d22 : pairDistance (6,8) (6,8) = 0 :=
    pairDistance_eq_of _ _ 0 0 (by norm_num [wsub32, wmul32]) le_rfl (by norm_num)
  unfold farthestPair collinearSamples
  simp only [List.flatMap_cons, List.flatMap_nil, List.map_cons, List.map_nil,
    List.append_nil, List.cons_append, List.nil_append, List.headD_cons,
    List.foldl_cons, List.foldl_nil, d00, d01, d02, d10, d11, d12, d20, d21, d22]
  norm_num

lemma maxDistToLine_collinear : maxDistToLine collinearSamples (0,0) (6,8) 10 = 0 := by
  unfold maxDistToLine collinearSamples lineDistance
  norm_num

lemma processContour_collinear_isSome :
    (processContour collinearSamples 1 1 3).isSome = true := by
  unfold processContour
  simp only [farthestPair_collinear]
  norm_num [f32div, f32vLt]
  rw [show maxDistToLine collinearSamples 0 (6, 8) 10 = 0 from maxDistToLine_collinear]
  simp

/-- C3 counterexample: a contour whose sampled points are perfectly
collinear is NOT rejected — `graphene_angles` emits a Flake Record
for it.  For `collinearContour` (samples `(0,0),(3,4),(6,8)`,
`scale = 1`, minimum size 1, minimum elongation ratio 3) the
perpendicular distance is 0, the quotient `10 / 0` is `+∞`, the
comparison `+∞ < 3` is false, so the rejection branch is not taken
and one record is produced, contradicting the claim that no record is
emitted. -/
theorem collinear_contour_not_rejected :
    (graphene_angles [collinearContour] 1 1 3).length = 1 := by
  have hsamp : sampleEvery5 collinearContour.points = collinearSamples := by decide
  unfold graphene_angles
  simp only [List.filterMap_cons, List.filterMap_nil]
  rw [if_neg (by decide : ¬ (collinearContour.border_type = BorderKind.Hole)), hsamp]
  obtain ⟨r, hr⟩ := Option.isSome_iff_exists.mp processContour_collinear_isSome
  rw [hr]
  simp

/-- C3 (amended): for every contour whose sampled points are
perfectly collinear (maximum perpendicular distance to the long-axis
line equal to zero) and whose long axis is nondegenerate and passes
the size filter, the elongation quotient is `+∞`, the comparison
against the minimum elongation ratio evaluates to false — and the
contour is therefore ACCEPTED: a Flake Record is emitted for it
(the claim's conclusion that the contour is rejected is reversed). -/
theorem collinear_contour_accepted (s : List (ℕ × ℕ)) (scale minSize minRatio : ℝ)
    (hpos : 0 < (farthestPair s).2.2)
    (hsize : ¬ (farthestPair s).2.2 * scale < minSize)
    (hcol : maxDistToLine s (farthestPair s).1 (farthestPair s).2.1 (farthestPair s).2.2 = 0) :
    ¬ f32vLt (f32div (farthestPair s).2.2
        (maxDistToLine s (farthestPair s).1 (farthestPair s).2.1 (farthestPair s).2.2)) minRatio
    ∧ (processContour s scale minSize minRatio).isSome = true := by
  have hdiv : f32div (farthestPair s).2.2
      (maxDistToLine s (farthestPair s).1 (farthestPair s).2.1 (farthestPair s).2.2)
      = F32Val.posInf := by
    rw [hcol]
    unfold f32div
    rw [if_pos rfl, if_pos hpos]
  refine ⟨by rw [hdiv]; simp [f32vLt], ?_⟩
  simp only [processContour]
  rw [if_neg hsize, hdiv]
  simp [f32vLt]

/-- Witness for the amended C3 at the concrete collinear samples
`(0,0),(3,4),(6,8)` with `scale = 1`, minimum size 1 and minimum
elongation ratio 3. -/
theorem collinear_contour_accepted_witness :
    0 < (farthestPair collinearSamples).2.2
      ∧ ¬ (farthestPair collinearSamples).2.2 * 1 < 1
      ∧ maxDistToLine collinearSamples (farthestPair collinearSamples).1
          (farthestPair collinearSamples).2.1 (farthestPair collinearSamples).2.2 = 0
      ∧ (¬ f32vLt (f32div (farthestPair collinearSamples).2.2
            (maxDistToLine collinearSamples (farthestPair collinearSamples).1
              (farthestPair collinearSamples).2.1 (farthestPair collinearSamples).2.2)) 3
          ∧ (processContour collinearSamples 1 1 3).isSome = true) := by
  have hpos : 0 < (farthestPair collinearSamples).2.2 := by
    rw [farthestPair_collinear]
    norm_num
  have hsize : ¬ (farthestPair collinearSamples).2.2 * 1 < 1 := by
    rw [farthestPair_collinear]
    norm_num
  have hcol : maxDistToLine collinearSamples (farthestPair collinearSamples).1
      (farthestPair collinearSamples).2.1 (farthestPair collinearSamples).2.2 = 0 := by
    simp only [farthestPair_collinear]
    exact maxDistToLine_collinear
  exact ⟨hpos, hsize, hcol, collinear_contour_accepted collinearSamples 1 1 3 hpos hsize hcol⟩
